import Mathlib

/-!
The class template interval_map of src/hello.cpp.

A shallow embedding of the class template `interval_map<K, V>` and of its member
function `assign`.

* `std::map<K, V>` is a list of `(key, value)` pairs whose keys ascend strictly.
* A `std::map` iterator is the key of the node it refers to, or `none` for `end()`.
  Node iterators of `std::map` stay valid across insertions and across erasures of other
  nodes, so a key identifies a node for as long as that node is not erased.
* The iterator operations have preconditions in C++ (`std::next` of `end()`, `std::prev` of
  `begin()`, `->` on `end()`, any use of an iterator to an erased node).  Each operation
  checks its precondition and returns a `Fault` when it is broken: `assign` therefore
  returns `Except Fault (interval_map K V)`, and `.error f` stands for undefined behaviour.
-/

namespace IntervalMap

/-- The preconditions of the `std::map` iterator operations that `assign` can break. -/
inductive Fault where
  /-- std::next applied to end() -/
  | advance_end
  /-- std::prev applied to begin() -/
  | retreat_begin
  /-- dereferencing end(), or erasing it -/
  | deref_end
  /-- use of an iterator whose node has been erased -/
  | invalidated
  /-- erase(first, last) where last comes before first -/
  | bad_range
  deriving DecidableEq

/-- The class `interval_map<K, V>`: its two data members. -/
structure interval_map (K V : Type) where
  /-- the value of every key below the first entry of m_map -/
  m_valBegin : V
  /-- the entries of the std::map, in key order -/
  m_map : List (K × V)
  deriving DecidableEq

/-- The constructor `interval_map(V_forward&& val)`: stores `val`, the map starts empty. -/
def interval_map.new {K V : Type} (val : V) : interval_map K V :=
  { m_valBegin := val, m_map := [] }

section map_operations

variable {K V : Type} [LinearOrder K]

/-- True when the map has a node with key `k`. -/
def contains (l : List (K × V)) (k : K) : Bool :=
  l.any (fun p => decide (p.1 = k))

/-- The iterator `m_map.begin()`: the first node, or `end()` in an empty map. -/
def begin : List (K × V) → Option K
  | [] => none
  | p :: _ => some p.1

/-- The iterator `m_map.lower_bound(k)`: the first node whose key is not less than `k`. -/
def lower_bound : List (K × V) → K → Option K
  | [], _ => none
  | p :: t, k => if p.1 < k then lower_bound t k else some p.1

/-- The iterator `m_map.find(k)`: the node with key `k`, or `end()`. -/
def find (l : List (K × V)) (k : K) : Option K :=
  if contains l k then some k else none

/-- The key of the last node whose key is less than `k`. -/
def last_below : List (K × V) → K → Option K
  | [], _ => none
  | p :: t, k =>
    if p.1 < k then
      (match last_below t k with
       | some j => some j
       | none => some p.1)
    else none

/-- The key of the last node of the map. -/
def last_key : List (K × V) → Option K
  | [] => none
  | [p] => some p.1
  | _ :: q :: t => last_key (q :: t)

/-- The key of the first node whose key is greater than `k`. -/
def first_above : List (K × V) → K → Option K
  | [], _ => none
  | p :: t, k => if k < p.1 then some p.1 else first_above t k

/-- The value stored in the node with key `k`. -/
def value_of : List (K × V) → K → Option V
  | [], _ => none
  | p :: t, k => if p.1 = k then some p.2 else value_of t k

/-- Dereferencing: `it->first` and `it->second`. -/
def deref (l : List (K × V)) (it : Option K) : Except Fault (K × V) :=
  match it with
  | none => .error .deref_end
  | some k =>
    (match value_of l k with
     | some v => .ok (k, v)
     | none => .error .invalidated)

/-- The iterator `std::prev(it)` (also `--it`). -/
def prev (l : List (K × V)) (it : Option K) : Except Fault (Option K) :=
  match it with
  | none =>
    (match last_key l with
     | some j => .ok (some j)
     | none => .error .retreat_begin)
  | some k =>
    if contains l k then
      (match last_below l k with
       | some j => .ok (some j)
       | none => .error .retreat_begin)
    else .error .invalidated

/-- The iterator `std::next(it)`. -/
def next (l : List (K × V)) (it : Option K) : Except Fault (Option K) :=
  match it with
  | none => .error .advance_end
  | some k => if contains l k then .ok (first_above l k) else .error .invalidated

/-- True when the iterator is `end()` or refers to a node of the map. -/
def live (l : List (K × V)) (it : Option K) : Bool :=
  match it with
  | none => true
  | some k => contains l k

/-- True when the node with key `k` lies in the iterator range `[first, last)`. -/
def in_range (first last : Option K) (k : K) : Bool :=
  (match first with
   | none => false
   | some f => decide (f ≤ k)) &&
  (match last with
   | none => true
   | some j => decide (k < j))

/-- True when position `first` is not after position `last`. -/
def not_after (first last : Option K) : Bool :=
  match first, last with
  | _, none => true
  | none, some _ => false
  | some f, some j => decide (f ≤ j)

/-- The call `m_map.erase(first, last)`: removes the nodes of `[first, last)`. -/
def erase_range (l : List (K × V)) (first last : Option K) : Except Fault (List (K × V)) :=
  if live l first && live l last then
    if not_after first last then
      .ok (l.filter (fun p => !(in_range first last p.1)))
    else .error .bad_range
  else .error .invalidated

/-- The call `m_map.erase(it)`: removes the node `it` refers to. -/
def erase (l : List (K × V)) (it : Option K) : Except Fault (List (K × V)) :=
  match it with
  | none => .error .deref_end
  | some k =>
    if contains l k then .ok (l.filter (fun p => !(decide (p.1 = k))))
    else .error .invalidated

/-- The statement `m_map[k] = v`: overwrites the node with key `k`, or inserts one. -/
def insert_or_assign : List (K × V) → K → V → List (K × V)
  | [], k, v => [(k, v)]
  | p :: t, k, v =>
    if k < p.1 then (k, v) :: p :: t
    else if p.1 < k then p :: insert_or_assign t k v
    else (k, v) :: t

end map_operations

section assign

variable {K V : Type} [LinearOrder K] [DecidableEq V]

/-- The member function `interval_map::assign(keyBegin, keyEnd, val)` of src/hello.cpp,
statement by statement.  The result `.error f` means the call broke the precondition `f`
of an iterator operation. -/
def assign (m : interval_map K V) (keyBegin keyEnd : K) (val : V) :
    Except Fault (interval_map K V) :=
  -- Step 1: if (!(keyBegin < keyEnd)) return;
  if ¬ (keyBegin < keyEnd) then .ok m else do
    -- Step 2: auto itBegin = m_map.lower_bound(keyBegin);
    let itLow := lower_bound m.m_map keyBegin
    let (map2, itBegin) ←
      (if itLow = none ∨ itLow ≠ some keyBegin then do
        -- auto prev = (itBegin == m_map.begin()) ? m_valBegin : std::prev(itBegin)->second;
        let prevVal ←
          (if itLow = begin m.m_map then pure m.m_valBegin
           else do
             let p ← prev m.m_map itLow
             let entry ← deref m.m_map p
             pure entry.2)
        -- if (prev != val) m_map[keyBegin] = val;
        let map2 := if prevVal ≠ val then insert_or_assign m.m_map keyBegin val else m.m_map
        -- itBegin = m_map.find(keyBegin);
        pure (map2, find map2 keyBegin)
      else pure (m.m_map, itLow))
    -- Step 3: auto itEnd = m_map.lower_bound(keyEnd);
    let itEnd := lower_bound map2 keyEnd
    -- if (itEnd != m_map.begin() && std::prev(itEnd)->second == val)
    --     itEnd = m_map.erase(std::prev(itEnd), itEnd);   (erase returns itEnd itself)
    let map3 ←
      (if itEnd ≠ begin map2 then do
        let p ← prev map2 itEnd
        let entry ← deref map2 p
        if entry.2 = val then erase_range map2 p itEnd else pure map2
      else pure map2)
    -- Step 4: m_map.erase(std::next(itBegin), itEnd);
    let itNext ← next map3 itBegin
    let map4 ← erase_range map3 itNext itEnd
    -- if (itEnd != m_map.end() && itEnd->first == keyEnd) m_map[keyEnd] = itEnd->second;
    -- else m_map[keyEnd] = (itEnd == m_map.begin()) ? m_valBegin : std::prev(itEnd)->second;
    -- (the right operand of = is evaluated before m_map[keyEnd])
    let endVal ←
      (if itEnd ≠ none ∧ itEnd = some keyEnd then do
        let entry ← deref map4 itEnd
        pure entry.2
      else if itEnd = begin map4 then pure m.m_valBegin
      else do
        let p ← prev map4 itEnd
        let entry ← deref map4 p
        pure entry.2)
    let map5 := insert_or_assign map4 keyEnd endVal
    -- auto itPrev = itBegin; if (itBegin != m_map.begin()) --itPrev;
    let itPrev ← (if itBegin ≠ begin map5 then prev map5 itBegin else pure itBegin)
    -- if (itPrev != m_map.end() && itPrev->second == itBegin->second) m_map.erase(itBegin);
    if itPrev ≠ none then do
      let entryPrev ← deref map5 itPrev
      let entryBegin ← deref map5 itBegin
      if entryPrev.2 = entryBegin.2 then do
        let map6 ← erase map5 itBegin
        pure { m_valBegin := m.m_valBegin, m_map := map6 }
      else pure { m_valBegin := m.m_valBegin, m_map := map5 }
    else pure { m_valBegin := m.m_valBegin, m_map := map5 }

/-- A sequence of `assign` calls, performed in order; it stops at the first call that
breaks an iterator precondition. -/
def assign_all (m : interval_map K V) : List (K × K × V) → Except Fault (interval_map K V)
  | [] => .ok m
  | c :: cs =>
    (match assign m c.1 c.2.1 c.2.2 with
     | .ok m2 => assign_all m2 cs
     | .error f => .error f)

/-- The function `main` of src/hello.cpp: the two calls it makes on
`interval_map<int, char> imap('A')`, and the entries of `m_map` that its loop prints. -/
def main : Except Fault (List (Int × Char)) := do
  let imap : interval_map Int Char := interval_map.new 'A'
  let imap ← assign imap 1 3 'B'
  let imap ← assign imap 4 6 'C'
  pure imap.m_map

end assign

section specification

variable {K V : Type} [LinearOrder K] [DecidableEq V]

/-- Modelled from the spec: the lookup `value_at(key)`, which src/hello.cpp does not define.
It returns the value of the last entry whose key is `<= key`, or the base value when there
is no such entry. -/
def value_at (m : interval_map K V) (x : K) : V :=
  match (m.m_map.filter (fun p => decide (p.1 ≤ x))).getLast? with
  | some p => p.2
  | none => m.m_valBegin

/-- Every key of the list is above `k`, and the keys ascend strictly. -/
def keys_above (k : K) : List (K × V) → Prop
  | [] => True
  | p :: t => k < p.1 ∧ keys_above p.1 t

/-- The invariant of `std::map`: the keys of the entries ascend strictly. -/
def keys_ascending : List (K × V) → Prop
  | [] => True
  | p :: t => keys_above p.1 t

/-- No entry carries the value that applies just before it: `w` before the first entry,
the previous entry's value before each later one. -/
def no_equal_neighbours (w : V) : List (K × V) → Prop
  | [] => True
  | p :: t => p.2 ≠ w ∧ no_equal_neighbours p.2 t

/-- Canonical form, in the spec's words: the first entry's value differs from the base
value and no two consecutive entries carry equal values. -/
def canonical (m : interval_map K V) : Prop :=
  no_equal_neighbours m.m_valBegin m.m_map

/-- Deciding `keys_above`. -/
def keys_above.decide : (k : K) → (l : List (K × V)) → Decidable (keys_above k l)
  | _, [] => isTrue trivial
  | k, p :: t =>
    have := keys_above.decide p.1 t
    inferInstanceAs (Decidable (k < p.1 ∧ keys_above p.1 t))

instance (k : K) (l : List (K × V)) : Decidable (keys_above k l) := keys_above.decide k l

instance : (l : List (K × V)) → Decidable (keys_ascending l)
  | [] => isTrue trivial
  | p :: t => inferInstanceAs (Decidable (keys_above p.1 t))

/-- Deciding `no_equal_neighbours`. -/
def no_equal_neighbours.decide :
    (w : V) → (l : List (K × V)) → Decidable (no_equal_neighbours w l)
  | _, [] => isTrue trivial
  | w, p :: t =>
    have := no_equal_neighbours.decide p.2 t
    inferInstanceAs (Decidable (p.2 ≠ w ∧ no_equal_neighbours p.2 t))

instance (w : V) (l : List (K × V)) : Decidable (no_equal_neighbours w l) :=
  no_equal_neighbours.decide w l

instance (m : interval_map K V) : Decidable (canonical m) :=
  inferInstanceAs (Decidable (no_equal_neighbours m.m_valBegin m.m_map))

/-- The value the spec's lookup-correctness property expects at key `x` after the calls
`cs` on a map constructed with `v0`: the value of the latest call whose range `[b, e)`
contains `x`, or `v0` when no call's range contains it. -/
def expected_value (v0 : V) : List (K × K × V) → K → V
  | [], _ => v0
  | c :: cs, x =>
    let later := expected_value v0 cs x
    if (cs.any (fun d => decide (d.1 ≤ x ∧ x < d.2.1))) then later
    else if c.1 ≤ x ∧ x < c.2.1 then c.2.2 else later

/-- The value that applies immediately before key `b`, in the words of the left-edge claim:
the value of the last entry whose key is `< b`, or the base value when there is none. -/
def value_before (m : interval_map K V) (b : K) : V :=
  match (m.m_map.filter (fun p => decide (p.1 < b))).getLast? with
  | some p => p.2
  | none => m.m_valBegin

end specification

section first_call

variable {K V : Type} [LinearOrder K] [DecidableEq V]

/-- On a newly constructed map every call with `b < e` breaks an iterator precondition at
`std::next(itBegin)`: when `v` is the base value no entry is stored at `b` and `itBegin`
is `end()`; otherwise the entry stored at `b` is erased again by step 3, just before. -/
theorem assign_new_faults (v0 : V) (b e : K) (v : V) (h : b < e) :
    assign (interval_map.new v0) b e v
      = .error (if v0 = v then Fault.advance_end else Fault.invalidated) := by
  have hne : ¬ e ≤ b := not_le.mpr h
  by_cases hv : v0 = v
  · subst hv
    simp [assign, h, interval_map.new, lower_bound, begin, find, contains, next, bind,
      Except.bind, pure, Except.pure]
  · have hv2 : ¬ v = v0 := fun h2 => hv h2.symm
    simp [assign, h, hv, interval_map.new, lower_bound, begin, find, contains, next,
      insert_or_assign, prev, last_key, deref, value_of, erase_range, live, not_after,
      in_range, bind, Except.bind, pure, Except.pure]

/-- A sequence of calls on a newly constructed map that returns has left the map as it was
constructed: its calls all had an empty range. -/
theorem assign_all_new_ok (v0 : V) (cs : List (K × K × V)) (s : interval_map K V)
    (h : assign_all (interval_map.new v0) cs = .ok s) : s = interval_map.new v0 := by
  induction cs with
  | nil => simpa [assign_all] using h.symm
  | cons c cs ih =>
    by_cases hlt : c.1 < c.2.1
    · simp [assign_all, assign_new_faults v0 c.1 c.2.1 c.2.2 hlt] at h
    · have h1 : assign (interval_map.new v0) c.1 c.2.1 c.2.2 = .ok (interval_map.new v0) := by
        simp [assign, hlt]
      rw [assign_all, h1] at h
      exact ih h

end first_call

section except_lemmas

/-- A sequence of two fallible steps returns exactly when both steps return. -/
theorem bind_eq_ok {ε α β : Type} (x : Except ε α) (f : α → Except ε β) (y : β) :
    (x >>= f) = .ok y ↔ ∃ a, x = .ok a ∧ f a = .ok y := by
  cases x with
  | error e => simp [bind, Except.bind]
  | ok a => simp [bind, Except.bind]

/-- A step without precondition returns its value. -/
theorem pure_eq_ok {ε α : Type} (x y : α) :
    (pure x : Except ε α) = .ok y ↔ x = y := by
  simp [pure, Except.pure]

/-- Filtering by `g` after `f` is filtering by `g` when `g` implies `f` on the list. -/
theorem filter_filter_of_imp {α : Type} (f g : α → Bool) (l : List α)
    (h : ∀ p ∈ l, g p = true → f p = true) : (l.filter f).filter g = l.filter g := by
  rw [List.filter_filter]
  apply List.filter_congr
  intro p hp
  cases hg : g p with
  | false => simp
  | true => simp [h p hp hg]

end except_lemmas

section map_lemmas

variable {K V : Type} [LinearOrder K]

theorem contains_iff {l : List (K × V)} {k : K} :
    contains l k = true ↔ ∃ p ∈ l, p.1 = k := by
  simp [contains]

theorem find_eq_some {l : List (K × V)} {b k : K} (h : find l b = some k) : b = k := by
  unfold find at h
  split at h
  · exact Option.some.inj h
  · simp at h

theorem contains_of_value_of {l : List (K × V)} {e : K} {w : V}
    (hv : value_of l e = some w) : contains l e = true := by
  induction l with
  | nil => simp [value_of] at hv
  | cons p t ih =>
    rw [value_of] at hv
    by_cases hpe : p.1 = e
    · exact contains_iff.mpr ⟨p, List.mem_cons_self _ _, hpe⟩
    · rw [if_neg hpe] at hv
      obtain ⟨r, hr, hre⟩ := contains_iff.mp (ih hv)
      exact contains_iff.mpr ⟨r, List.mem_cons_of_mem _ hr, hre⟩

theorem keys_above_mem {k : K} {l : List (K × V)} (h : keys_above k l) :
    ∀ q ∈ l, k < q.1 := by
  induction l generalizing k with
  | nil => intro q hq; cases hq
  | cons p t ih =>
    intro q hq
    rcases List.mem_cons.mp hq with rfl | hq
    · exact h.1
    · exact lt_trans h.1 (ih h.2 q hq)

theorem keys_above_tail {k : K} {p : K × V} {t : List (K × V)} (h : keys_above k (p :: t)) :
    keys_above k t := by
  cases t with
  | nil => trivial
  | cons q t => exact ⟨lt_trans h.1 h.2.1, h.2.2⟩

theorem keys_above_filter {k : K} {l : List (K × V)} (f : K × V → Bool)
    (h : keys_above k l) : keys_above k (l.filter f) := by
  induction l generalizing k with
  | nil => trivial
  | cons p t ih =>
    rw [List.filter_cons]
    split
    · exact ⟨h.1, ih h.2⟩
    · exact ih (keys_above_tail h)

theorem keys_ascending_tail {p : K × V} {t : List (K × V)} (h : keys_ascending (p :: t)) :
    keys_ascending t := by
  cases t with
  | nil => trivial
  | cons q t => exact h.2

/-- Erasing entries keeps the keys in ascending order. -/
theorem keys_ascending_filter {l : List (K × V)} (f : K × V → Bool)
    (h : keys_ascending l) : keys_ascending (l.filter f) := by
  induction l with
  | nil => trivial
  | cons p t ih =>
    rw [List.filter_cons]
    split
    · exact keys_above_filter f h
    · exact ih (keys_ascending_tail h)

theorem keys_above_insert {j k : K} {v : V} {l : List (K × V)} (hj : j < k)
    (h : keys_above j l) : keys_above j (insert_or_assign l k v) := by
  induction l generalizing j with
  | nil => exact ⟨hj, trivial⟩
  | cons p t ih =>
    rw [insert_or_assign]
    split
    · exact ⟨hj, ‹k < p.1›, h.2⟩
    · split
      · exact ⟨h.1, ih ‹p.1 < k› h.2⟩
      · rename_i h1 h2
        have hpk : p.1 = k := le_antisymm (not_lt.mp h1) (not_lt.mp h2)
        exact ⟨hj, hpk ▸ h.2⟩

/-- The statement `m_map[k] = v` keeps the keys in ascending order. -/
theorem keys_ascending_insert {k : K} {v : V} {l : List (K × V)}
    (h : keys_ascending l) : keys_ascending (insert_or_assign l k v) := by
  cases l with
  | nil => trivial
  | cons p t =>
    rw [insert_or_assign]
    split
    · exact ⟨‹k < p.1›, h⟩
    · split
      · exact keys_above_insert ‹p.1 < k› h
      · rename_i h1 h2
        have hpk : p.1 = k := le_antisymm (not_lt.mp h1) (not_lt.mp h2)
        exact hpk ▸ h

/-- The statement `m_map[b] = v` with `b < e` leaves the entries from `e` on as they are. -/
theorem filter_from_insert {b e : K} (v : V) (l : List (K × V)) (h : b < e) :
    (insert_or_assign l b v).filter (fun p => decide (e ≤ p.1))
      = l.filter (fun p => decide (e ≤ p.1)) := by
  have hb : ¬ e ≤ b := not_le.mpr h
  induction l with
  | nil => simp [insert_or_assign, hb]
  | cons p t ih =>
    rw [insert_or_assign]
    split
    · simp [List.filter_cons, hb]
    · split
      · simp only [List.filter_cons, ih]
      · rename_i h1 h2
        have hpk : p.1 = b := le_antisymm (not_lt.mp h1) (not_lt.mp h2)
        simp [List.filter_cons, hb, hpk]

/-- The map a returning `erase(first, last)` leaves. -/
theorem erase_range_ok {l l2 : List (K × V)} {first last : Option K}
    (h : erase_range l first last = .ok l2) :
    l2 = l.filter (fun p => !(in_range first last p.1)) := by
  unfold erase_range at h
  split at h
  · split at h
    · exact (Except.ok.inj h).symm
    · simp at h
  · simp at h

/-- An `erase(first, last)` whose `last` is the entry at `e` leaves the entries from `e` on
as they are. -/
theorem erase_range_from {l l2 : List (K × V)} {first : Option K} {e : K}
    (h : erase_range l first (some e) = .ok l2) :
    l2.filter (fun p => decide (e ≤ p.1)) = l.filter (fun p => decide (e ≤ p.1)) := by
  rw [erase_range_ok h]
  apply filter_filter_of_imp
  intro q _ hq
  have hq2 : ¬ q.1 < e := not_lt.mpr (by simpa using hq)
  simp [in_range, hq2]

/-- In a map that holds an entry at `e`, `lower_bound(e)` is that entry. -/
theorem lower_bound_of_contains {l : List (K × V)} {e : K} (hs : keys_ascending l)
    (hc : contains l e = true) : lower_bound l e = some e := by
  induction l with
  | nil => simp [contains] at hc
  | cons p t ih =>
    rw [lower_bound]
    obtain ⟨q, hq, hqe⟩ := contains_iff.mp hc
    rcases List.mem_cons.mp hq with rfl | hq
    · simp [hqe]
    · have hlt : p.1 < e := hqe ▸ keys_above_mem hs q hq
      rw [if_pos hlt]
      exact ih (keys_ascending_tail hs) (contains_iff.mpr ⟨q, hq, hqe⟩)

/-- Writing into the entry at `e` the value it already carries changes nothing. -/
theorem insert_or_assign_self {l : List (K × V)} {e : K} {w : V} (hs : keys_ascending l)
    (hv : value_of l e = some w) : insert_or_assign l e w = l := by
  induction l with
  | nil => simp [value_of] at hv
  | cons p t ih =>
    rw [value_of] at hv
    rw [insert_or_assign]
    by_cases hpe : p.1 = e
    · rw [if_pos hpe] at hv
      have hw : p.2 = w := Option.some.inj hv
      simp [← hpe, ← hw]
    · rw [if_neg hpe] at hv
      have ht := ih (keys_ascending_tail hs) hv
      obtain ⟨q, hq, hqe⟩ := contains_iff.mp (contains_of_value_of hv)
      have hlt : p.1 < e := hqe ▸ keys_above_mem hs q hq
      rw [if_neg (not_lt.mpr (le_of_lt hlt)), if_pos hlt, ht]

/-- In a map that holds an entry at `e`, the last entry with key `<= x`, for `e <= x`, is
found among the entries from `e` on. -/
theorem last_le_from {l : List (K × V)} {e x : K} (hs : keys_ascending l)
    (hc : contains l e = true) (hx : e ≤ x) :
    (l.filter (fun p => decide (p.1 ≤ x))).getLast?
      = ((l.filter (fun p => decide (e ≤ p.1))).filter (fun p => decide (p.1 ≤ x))).getLast? := by
  induction l with
  | nil => simp [contains] at hc
  | cons p t ih =>
    by_cases hpe : e ≤ p.1
    · have hall : (p :: t).filter (fun q => decide (e ≤ q.1)) = p :: t := by
        apply List.filter_eq_self.mpr
        intro q hq
        rcases List.mem_cons.mp hq with rfl | hq
        · simpa using hpe
        · simpa using le_of_lt (lt_of_le_of_lt hpe (keys_above_mem hs q hq))
      rw [hall]
    · have hlt : p.1 < e := not_le.mp hpe
      obtain ⟨q, hq, hqe⟩ := contains_iff.mp hc
      have hqt : q ∈ t := by
        rcases List.mem_cons.mp hq with rfl | hq
        · exact absurd hqe (ne_of_lt hlt)
        · exact hq
      have hct : contains t e = true := contains_iff.mpr ⟨q, hqt, hqe⟩
      have hne : t.filter (fun p => decide (p.1 ≤ x)) ≠ [] := by
        intro h0
        have : q ∈ t.filter (fun p => decide (p.1 ≤ x)) :=
          List.mem_filter.mpr ⟨hqt, by simpa [hqe] using hx⟩
        rw [h0] at this
        cases this
      have h1 : (p :: t).filter (fun p => decide (p.1 ≤ x))
          = p :: t.filter (fun p => decide (p.1 ≤ x)) := by
        simp [List.filter_cons, le_trans (le_of_lt hlt) hx]
      have h2 : (p :: t).filter (fun p => decide (e ≤ p.1))
          = t.filter (fun p => decide (e ≤ p.1)) := by
        simp [List.filter_cons, hpe]
      rw [h1, h2, ← ih (keys_ascending_tail hs) hct, List.getLast?_cons]
      cases hg : (t.filter (fun p => decide (p.1 ≤ x))).getLast? with
      | none => exact absurd (List.getLast?_eq_none_iff.mp hg) hne
      | some r => rfl

/-- In a map that holds an entry at `e` with value `w`, the last entry with key `<= e` is
that entry. -/
theorem last_le_at {l : List (K × V)} {e : K} {w : V} (hs : keys_ascending l)
    (hv : value_of l e = some w) :
    (l.filter (fun p => decide (p.1 ≤ e))).getLast? = some (e, w) := by
  induction l with
  | nil => simp [value_of] at hv
  | cons p t ih =>
    rw [value_of] at hv
    by_cases hpe : p.1 = e
    · rw [if_pos hpe] at hv
      have hw : p.2 = w := Option.some.inj hv
      have ht : t.filter (fun q => decide (q.1 ≤ e)) = [] := by
        apply List.filter_eq_nil_iff.mpr
        intro q hq
        simpa using hpe ▸ keys_above_mem hs q hq
      have hp : p = (e, w) := Prod.ext hpe hw
      simp [List.filter_cons, ht, hp]
    · rw [if_neg hpe] at hv
      have hih := ih (keys_ascending_tail hs) hv
      obtain ⟨q, hq, hqe⟩ := contains_iff.mp (contains_of_value_of hv)
      have hlt : p.1 < e := hqe ▸ keys_above_mem hs q hq
      have h1 : (p :: t).filter (fun p => decide (p.1 ≤ e))
          = p :: t.filter (fun p => decide (p.1 ≤ e)) := by
        simp [List.filter_cons, le_of_lt hlt]
      rw [h1, List.getLast?_cons, hih]
      rfl

end map_lemmas

section returning_calls

variable {K V : Type} [LinearOrder K] [DecidableEq V]

/-- What a call with a non-empty range that returns has done, step by step: `map2` is
the map after step 2, `map3` after step 3, `map4` after the erase of step 4, `endVal` the
value written at `keyEnd`; `itBegin` referred to a live entry at `keyBegin` in step 4. -/
theorem assign_ok_steps {m m2 : interval_map K V} {b e : K} {v : V} (hlt : b < e)
    (hok : assign m b e v = .ok m2) :
    ∃ map2 map3 map4 endVal,
      (map2 = m.m_map ∨ map2 = insert_or_assign m.m_map b v) ∧
      (map3 = map2 ∨ ∃ p, prev map2 (lower_bound map2 e) = .ok p ∧
          erase_range map2 p (lower_bound map2 e) = .ok map3) ∧
      contains map3 b = true ∧
      erase_range map3 (first_above map3 b) (lower_bound map2 e) = .ok map4 ∧
      (lower_bound map2 e = some e → value_of map4 e = some endVal) ∧
      (m2.m_map = insert_or_assign map4 e endVal ∨
        m2.m_map = (insert_or_assign map4 e endVal).filter (fun p => !(decide (p.1 = b)))) ∧
      m2.m_valBegin = m.m_valBegin := by
  unfold assign at hok
  rw [if_neg (not_not.mpr hlt)] at hok
  simp only [bind_eq_ok] at hok
  obtain ⟨⟨map2, itBegin⟩, h2, map3, h3, itNext, h4, map4, h4b, endVal, h5, itPrev, h6, h7⟩ := hok
  simp only at h3 h4 h4b h5 h6 h7
  -- itBegin refers to the entry at keyBegin
  have hb : itBegin = some b ∧ contains map3 b = true ∧ itNext = first_above map3 b := by
    cases itBegin with
    | none => simp [next] at h4
    | some k =>
      have hk : k = b := by
        split at h2
        · simp only [bind_eq_ok, pure_eq_ok] at h2
          obtain ⟨prevVal, _, h2⟩ := h2
          exact (find_eq_some (congrArg Prod.snd h2)).symm
        · rename_i hc
          simp only [pure_eq_ok, Prod.mk.injEq] at h2
          simp only [not_or, ne_eq, not_not] at hc
          rw [hc.2] at h2
          exact (Option.some.inj h2.2).symm
      subst hk
      simp only [next] at h4
      split at h4
      · rename_i hc
        exact ⟨rfl, hc, by simpa using h4.symm⟩
      · simp at h4
  obtain ⟨hb1, hb2, hb3⟩ := hb
  subst hb1 hb3
  refine ⟨map2, map3, map4, endVal, ?_, ?_, hb2, h4b, ?_, ?_, ?_⟩
  · split at h2
    · simp only [bind_eq_ok, pure_eq_ok] at h2
      obtain ⟨prevVal, _, h2⟩ := h2
      have h21 := congrArg Prod.fst h2
      simp only at h21
      by_cases hp : prevVal = v
      · left; simpa [hp] using h21.symm
      · right; simpa [hp] using h21.symm
    · simp only [pure_eq_ok, Prod.mk.injEq] at h2
      exact Or.inl h2.1.symm
  · split at h3
    · simp only [bind_eq_ok] at h3
      obtain ⟨p, hp, entry, _, h3⟩ := h3
      split at h3
      · exact Or.inr ⟨p, hp, h3⟩
      · exact Or.inl ((pure_eq_ok _ _).mp h3).symm
    · exact Or.inl ((pure_eq_ok _ _).mp h3).symm
  · intro hE
    rw [hE] at h5
    simp only [ne_eq, reduceCtorEq, not_false_eq_true, and_self, if_true, bind_eq_ok,
      pure_eq_ok] at h5
    obtain ⟨entry, hd, hv⟩ := h5
    simp only [deref] at hd
    split at hd
    · rename_i w hw
      simp only [Except.ok.injEq] at hd
      rw [← hv, ← hd]
      exact hw
    · simp at hd
  · split at h7
    · simp only [bind_eq_ok] at h7
      obtain ⟨_, _, _, _, h7⟩ := h7
      split at h7
      · simp only [bind_eq_ok, pure_eq_ok] at h7
        obtain ⟨map6, h6e, h7⟩ := h7
        simp only [erase] at h6e
        split at h6e
        · simp only [Except.ok.injEq] at h6e
          right
          rw [← h7, ← h6e]
        · simp at h6e
      · left
        rw [← (pure_eq_ok _ _).mp h7]
    · left
      rw [← (pure_eq_ok _ _).mp h7]
  · split at h7
    · simp only [bind_eq_ok] at h7
      obtain ⟨_, _, _, _, h7⟩ := h7
      split at h7
      · simp only [bind_eq_ok, pure_eq_ok] at h7
        obtain ⟨map6, _, h7⟩ := h7
        rw [← h7]
      · rw [← (pure_eq_ok _ _).mp h7]
    · rw [← (pure_eq_ok _ _).mp h7]

/-- A returning call keeps the entries from `keyEnd` on when the map holds an entry at
`keyEnd`, and it keeps the keys in ascending order. -/
theorem assign_entries_from_keyEnd {m m2 : interval_map K V} {b e : K} {v : V}
    (hs : keys_ascending m.m_map) (he : contains m.m_map e = true) (hlt : b < e)
    (hok : assign m b e v = .ok m2) :
    m2.m_map.filter (fun p => decide (e ≤ p.1)) = m.m_map.filter (fun p => decide (e ≤ p.1))
      ∧ keys_ascending m2.m_map := by
  obtain ⟨map2, map3, map4, endVal, h2, h3, _, h4, h5, h6, _⟩ := assign_ok_steps hlt hok
  have hs2 : keys_ascending map2 := by
    rcases h2 with rfl | rfl
    · exact hs
    · exact keys_ascending_insert hs
  have hF2 : map2.filter (fun p => decide (e ≤ p.1))
      = m.m_map.filter (fun p => decide (e ≤ p.1)) := by
    rcases h2 with rfl | rfl
    · rfl
    · exact filter_from_insert v _ hlt
  have hc2 : contains map2 e = true := by
    obtain ⟨q, hq, hqe⟩ := contains_iff.mp he
    have hq2 : q ∈ m.m_map.filter (fun p => decide (e ≤ p.1)) :=
      List.mem_filter.mpr ⟨hq, by simp [hqe]⟩
    rw [← hF2] at hq2
    exact contains_iff.mpr ⟨q, (List.mem_filter.mp hq2).1, hqe⟩
  have hE : lower_bound map2 e = some e := lower_bound_of_contains hs2 hc2
  rw [hE] at h3 h4
  have hs3 : keys_ascending map3 := by
    rcases h3 with rfl | ⟨p, _, h3⟩
    · exact hs2
    · rw [erase_range_ok h3]
      exact keys_ascending_filter _ hs2
  have hF3 : map3.filter (fun p => decide (e ≤ p.1))
      = map2.filter (fun p => decide (e ≤ p.1)) := by
    rcases h3 with rfl | ⟨p, _, h3⟩
    · rfl
    · exact erase_range_from h3
  have hs4 : keys_ascending map4 := by
    rw [erase_range_ok h4]
    exact keys_ascending_filter _ hs3
  have hF4 := erase_range_from h4
  have h5b : insert_or_assign map4 e endVal = map4 := insert_or_assign_self hs4 (h5 hE)
  rw [h5b] at h6
  rcases h6 with h6 | h6
  · rw [h6]
    exact ⟨by rw [hF4, hF3, hF2], hs4⟩
  · rw [h6]
    refine ⟨?_, keys_ascending_filter _ hs4⟩
    rw [filter_filter_of_imp, hF4, hF3, hF2]
    intro q _ hq
    have hq2 : e ≤ q.1 := by simpa using hq
    have : q.1 ≠ b := ne_of_gt (lt_of_lt_of_le hlt hq2)
    simp [this]

/-- Returning calls only: when the map holds an entry at `keyEnd` and the keys ascend, a
call with `keyBegin < keyEnd` that returns leaves the lookup at every key `x >= keyEnd` as
it was.  It says nothing of the calls that break an iterator precondition. -/
theorem returning_assign_keeps_values_from_keyEnd (m m2 : interval_map K V)
    (keyBegin keyEnd : K) (val : V)
    (hs : keys_ascending m.m_map) (he : contains m.m_map keyEnd = true)
    (hlt : keyBegin < keyEnd) (hok : assign m keyBegin keyEnd val = .ok m2) :
    (∀ x, keyEnd ≤ x → value_at m2 x = value_at m x) ∧
      (∀ w, value_of m.m_map keyEnd = some w → value_at m2 keyEnd = w) := by
  obtain ⟨hF, hs2⟩ := assign_entries_from_keyEnd hs he hlt hok
  obtain ⟨_, _, _, _, _, _, _, _, _, _, hbase⟩ := assign_ok_steps hlt hok
  have he2 : contains m2.m_map keyEnd = true := by
    obtain ⟨q, hq, hqe⟩ := contains_iff.mp he
    have hq2 : q ∈ m.m_map.filter (fun p => decide (keyEnd ≤ p.1)) :=
      List.mem_filter.mpr ⟨hq, by simp [hqe]⟩
    rw [← hF] at hq2
    exact contains_iff.mpr ⟨q, (List.mem_filter.mp hq2).1, hqe⟩
  have hval : ∀ x, keyEnd ≤ x → value_at m2 x = value_at m x := by
    intro x hx
    unfold value_at
    rw [last_le_from hs2 he2 hx, last_le_from hs he hx, hF, hbase]
  refine ⟨hval, ?_⟩
  intro w hw
  rw [hval keyEnd (le_refl keyEnd)]
  unfold value_at
  rw [last_le_at hs hw]

/-- Returning calls only: the state a call returns has the base value of the state before
it.  It says nothing of the calls that break an iterator precondition. -/
theorem returning_assign_keeps_base (m m2 : interval_map K V)
    (keyBegin keyEnd : K) (val : V)
    (hok : assign m keyBegin keyEnd val = .ok m2) : m2.m_valBegin = m.m_valBegin := by
  by_cases hlt : keyBegin < keyEnd
  · obtain ⟨_, _, _, _, _, _, _, _, _, _, hbase⟩ := assign_ok_steps hlt hok
    exact hbase
  · unfold assign at hok
    rw [if_pos hlt] at hok
    rw [← Except.ok.inj hok]

end returning_calls

section claims

/-- C1 (fails on the code): on a map constructed with 'A' the one-call history
assign(1, 3, 'B') does not return a state: it inserts 1 -> 'B', erases that entry again in
step 3 and then applies std::next to the erased itBegin. The lookup-correctness property
expects 'B' at key 1 and 'A' at key 3 after this history. -/
theorem lookup_history_first_call_faults :
    assign_all (interval_map.new 'A' : interval_map Int Char) [(1, 3, 'B')]
        = .error Fault.invalidated ∧
      expected_value 'A' [((1 : Int), 3, 'B')] 1 = 'B' ∧
      expected_value 'A' [((1 : Int), 3, 'B')] 3 = 'A' :=
  ⟨rfl, by decide, by decide⟩

/-- C2 (fails on the code): no state follows a first call with a non-empty range, so the
canonical-form invariant has nothing to hold of: on a map constructed with 'A' the
history assign(0, 0, 'X'), assign(2, 5, 'A') stops in the second call at std::next(end()),
and the history assign(2, 5, 'C') stops at std::next of the erased itBegin. -/
theorem canonical_history_first_call_faults :
    assign_all (interval_map.new 'A' : interval_map Int Char) [(0, 0, 'X'), (2, 5, 'A')]
        = .error Fault.advance_end ∧
      assign_all (interval_map.new 'A' : interval_map Int Char) [(2, 5, 'C')]
        = .error Fault.invalidated :=
  ⟨rfl, rfl⟩

/-- C3 (fails on the code): in the canonical state with base 'A' and entries 1 -> 'B',
3 -> 'A', the call assign(1, 3, 'C') keeps the entry at 1 with its old value and then
erases it as the first entry; it returns the entries 3 -> 'A', so the keys 1 and 2 of the
assigned range read 'A' and not 'C'. -/
theorem assign_range_not_overwritten :
    keys_ascending [((1 : Int), 'B'), (3, 'A')] ∧
      canonical (⟨'A', [(1, 'B'), (3, 'A')]⟩ : interval_map Int Char) ∧
      assign (⟨'A', [(1, 'B'), (3, 'A')]⟩ : interval_map Int Char) 1 3 'C'
        = .ok ⟨'A', [(3, 'A')]⟩ ∧
      value_at (⟨'A', [(3, 'A')]⟩ : interval_map Int Char) 1 = 'A' ∧
      value_at (⟨'A', [(3, 'A')]⟩ : interval_map Int Char) 2 = 'A' :=
  ⟨by decide, by decide, rfl, by decide, by decide⟩

/-- C4 (fails on the code): in the canonical state with base 'A' and the entry 5 -> 'C',
the call assign(2, 6, 'B') returns the entries 6 -> 'B': the key 6, outside the range
[2, 6), read 'C' before the call and reads 'B' after it. -/
theorem assign_changes_value_at_keyEnd :
    keys_ascending [((5 : Int), 'C')] ∧
      canonical (⟨'A', [(5, 'C')]⟩ : interval_map Int Char) ∧
      assign (⟨'A', [(5, 'C')]⟩ : interval_map Int Char) 2 6 'B' = .ok ⟨'A', [(6, 'B')]⟩ ∧
      value_at (⟨'A', [(5, 'C')]⟩ : interval_map Int Char) 6 = 'C' ∧
      value_at (⟨'A', [(6, 'B')]⟩ : interval_map Int Char) 6 = 'B' :=
  ⟨by decide, by decide, rfl, by decide, by decide⟩

/-- C5 (fails on the code): in the canonical state with base 'A' and entries 3 -> 'B',
5 -> 'A', the call assign(5, 6, 'C') returns the entries 3 -> 'B', 5 -> 'A', 6 -> 'A',
whose last two consecutive entries carry the same value: the state after the call is not
in canonical form. -/
theorem assign_breaks_canonical :
    keys_ascending [((3 : Int), 'B'), (5, 'A')] ∧
      canonical (⟨'A', [(3, 'B'), (5, 'A')]⟩ : interval_map Int Char) ∧
      assign (⟨'A', [(3, 'B'), (5, 'A')]⟩ : interval_map Int Char) 5 6 'C'
        = .ok ⟨'A', [(3, 'B'), (5, 'A'), (6, 'A')]⟩ ∧
      ¬ canonical (⟨'A', [(3, 'B'), (5, 'A'), (6, 'A')]⟩ : interval_map Int Char) :=
  ⟨by decide, by decide, rfl, by decide⟩

/-- C6 (fails on the code): in the canonical state with base 'A' and entries 1 -> 'B',
3 -> 'A', the call assign(4, 6, 'C') inserts 4 -> 'C', erases that entry again in step 3
(it is std::prev(itEnd) and carries val) and then evaluates std::next(itBegin) on the
erased entry: itBegin is not a live entry there. The same happens for this call on the
newly constructed map with base 'A'. -/
theorem assign_uses_erased_itBegin :
    keys_ascending [((1 : Int), 'B'), (3, 'A')] ∧
      canonical (⟨'A', [(1, 'B'), (3, 'A')]⟩ : interval_map Int Char) ∧
      assign (⟨'A', [(1, 'B'), (3, 'A')]⟩ : interval_map Int Char) 4 6 'C'
        = .error Fault.invalidated ∧
      canonical (interval_map.new 'A' : interval_map Int Char) ∧
      assign (interval_map.new 'A' : interval_map Int Char) 4 6 'C'
        = .error Fault.invalidated :=
  ⟨by decide, by decide, rfl, by decide, rfl⟩

/-- C7: a call whose range is empty, not (keyBegin < keyEnd), returns and leaves the base
value and the transition map exactly as they were, for every state and every value. -/
theorem assign_empty_range {K V : Type} [LinearOrder K] [DecidableEq V]
    (m : interval_map K V) (keyBegin keyEnd : K) (val : V) (h : ¬ keyBegin < keyEnd) :
    assign m keyBegin keyEnd val = .ok m := by
  unfold assign
  rw [if_pos h]

/-- C7 at a concrete input: assign(5, 2, 'C') on base 'A', entries 1 -> 'B', 3 -> 'A'. -/
theorem assign_empty_range_witness :
    ¬ ((5 : Int) < 2) ∧
      assign (⟨'A', [(1, 'B'), (3, 'A')]⟩ : interval_map Int Char) 5 2 'C'
        = .ok ⟨'A', [(1, 'B'), (3, 'A')]⟩ :=
  ⟨by decide, assign_empty_range ⟨'A', [(1, 'B'), (3, 'A')]⟩ 5 2 'C' (by decide)⟩

/-- C8 (fails on the code): in the canonical state with base 'A' and entries 1 -> 'B',
5 -> 'A', every key of [2, 4) already reads 'B'; the call assign(2, 4, 'B') stores nothing
at 2, so itBegin is end(), erases the entry 1 -> 'B' in step 3 and then evaluates
std::next(end()): it does not return with the map unchanged. On the newly constructed map
with base 'A', where every key reads 'A', the call assign(2, 4, 'A') evaluates
std::next(end()) as well. -/
theorem assign_equal_value_faults :
    keys_ascending [((1 : Int), 'B'), (5, 'A')] ∧
      canonical (⟨'A', [(1, 'B'), (5, 'A')]⟩ : interval_map Int Char) ∧
      (∀ x : Int, 2 ≤ x → x < 4 →
        value_at (⟨'A', [(1, 'B'), (5, 'A')]⟩ : interval_map Int Char) x = 'B') ∧
      assign (⟨'A', [(1, 'B'), (5, 'A')]⟩ : interval_map Int Char) 2 4 'B'
        = .error Fault.advance_end ∧
      (∀ x : Int, value_at (interval_map.new 'A' : interval_map Int Char) x = 'A') ∧
      assign (interval_map.new 'A' : interval_map Int Char) 2 4 'A'
        = .error Fault.advance_end := by
  refine ⟨by decide, by decide, ?_, rfl, fun _ => rfl, rfl⟩
  intro x h1 h2
  interval_cases x <;> decide

/-- C9 (fails on the code): in the canonical state with base 'A' and entries 1 -> 'B',
2 -> 'C', 5 -> 'A', the call assign(1, 3, 'C') returns the entries 3 -> 'B', 5 -> 'A';
the same call once more on that state inserts 1 -> 'C', erases it again in step 3 and
evaluates std::next on the erased itBegin, so the second call yields no state. -/
theorem assign_twice_faults :
    keys_ascending [((1 : Int), 'B'), (2, 'C'), (5, 'A')] ∧
      canonical (⟨'A', [(1, 'B'), (2, 'C'), (5, 'A')]⟩ : interval_map Int Char) ∧
      assign (⟨'A', [(1, 'B'), (2, 'C'), (5, 'A')]⟩ : interval_map Int Char) 1 3 'C'
        = .ok ⟨'A', [(3, 'B'), (5, 'A')]⟩ ∧
      assign (⟨'A', [(3, 'B'), (5, 'A')]⟩ : interval_map Int Char) 1 3 'C'
        = .error Fault.invalidated :=
  ⟨by decide, by decide, rfl, rfl⟩

/-- C10 (fails on the code): main constructs the map with 'A' and calls assign(1, 3, 'B');
that call inserts 1 -> 'B', erases it again in step 3 and evaluates std::next on the
erased itBegin, so main has undefined behaviour before it prints any entry. -/
theorem main_faults : main = .error Fault.invalidated :=
  rfl

/-- C11 (fails on the code): on a map constructed with 'A' the history assign(1, 3, 'B'),
assign(4, 6, 'C'), assign(2, 5, 'B') stops in its first call, at std::next of the erased
itBegin, so there is no state to look keys 1..6 up in. From the state the spec expects
after the first two calls (entries 1 -> 'B', 3 -> 'A', 4 -> 'C', 6 -> 'A') the third call
does not return either: nothing is stored at 2, itBegin is end(), and std::next(end()) is
evaluated. -/
theorem overlap_scenario_faults :
    assign_all (interval_map.new 'A' : interval_map Int Char)
        [(1, 3, 'B'), (4, 6, 'C'), (2, 5, 'B')] = .error Fault.invalidated ∧
      assign (⟨'A', [(1, 'B'), (3, 'A'), (4, 'C'), (6, 'A')]⟩ : interval_map Int Char) 2 5 'B'
        = .error Fault.advance_end :=
  ⟨rfl, rfl⟩

/-- C12 (fails on the code): in the canonical state with base 'A' and entries 1 -> 'B',
5 -> 'A', which holds an entry at key 5, the call assign(2, 5, 'B') stores nothing at 2
(the value before 2 is val), so itBegin = find(2) is end(); step 3 erases the entry
1 -> 'B' (it is std::prev(itEnd) and carries val), and line 47 evaluates std::next(end()).
The call is undefined behaviour, so no state follows in which the keys from 5 on, which read
'A' before the call, could be looked up. -/
theorem assign_existing_keyEnd_faults :
    keys_ascending [((1 : Int), 'B'), (5, 'A')] ∧
      canonical (⟨'A', [(1, 'B'), (5, 'A')]⟩ : interval_map Int Char) ∧
      contains [((1 : Int), 'B'), (5, 'A')] 5 = true ∧
      value_at (⟨'A', [(1, 'B'), (5, 'A')]⟩ : interval_map Int Char) 5 = 'A' ∧
      find [((1 : Int), 'B'), (5, 'A')] 2 = none ∧
      erase_range [((1 : Int), 'B'), (5, 'A')] (some 1) (some 5) = .ok [(5, 'A')] ∧
      next [((5 : Int), 'A')] none = .error Fault.advance_end ∧
      assign (⟨'A', [(1, 'B'), (5, 'A')]⟩ : interval_map Int Char) 2 5 'B'
        = .error Fault.advance_end :=
  ⟨by decide, by decide, by decide, by decide, by decide, rfl, rfl, rfl⟩

/-- C13: a newly constructed interval_map(v) has base value v and an empty transition map,
so the lookup rule yields v for every key. -/
theorem new_reads_base_everywhere {K V : Type} [LinearOrder K] (v : V) :
    (interval_map.new v : interval_map K V).m_valBegin = v ∧
      (interval_map.new v : interval_map K V).m_map = [] ∧
      ∀ x : K, value_at (interval_map.new v : interval_map K V) x = v :=
  ⟨rfl, rfl, fun _ => rfl⟩

/-- C14 (fails on the code): on the map constructed with 'A' the call assign(0, 10, 'Z')
inserts 0 -> 'Z', erases it again in step 3 and evaluates std::next on the erased itBegin,
and the call assign(0, 10, 'A') stores nothing at 0 and evaluates std::next(end()). Both
calls are undefined behaviour, so no state follows whose base value could be compared
with the base value before the call. -/
theorem assign_fault_leaves_no_base :
    (interval_map.new 'A' : interval_map Int Char).m_valBegin = 'A' ∧
      assign (interval_map.new 'A' : interval_map Int Char) 0 10 'Z'
        = .error Fault.invalidated ∧
      assign (interval_map.new 'A' : interval_map Int Char) 0 10 'A'
        = .error Fault.advance_end :=
  ⟨rfl, rfl, rfl⟩

/-- C15 (fails on the code): in the canonical state with base 'A' and entries 2 -> 'B',
5 -> 'A', the call assign(1, 4, 'A') stores nothing at 1 (the value before 1 is val), so
itBegin = find(1) is end(); the statement that clears the interior,
erase(std::next(itBegin), itEnd), evaluates std::next(end()), and the entry 2 -> 'B' with
1 < 2 < 4 has not been removed. -/
theorem assign_interior_not_cleared :
    keys_ascending [((2 : Int), 'B'), (5, 'A')] ∧
      canonical (⟨'A', [(2, 'B'), (5, 'A')]⟩ : interval_map Int Char) ∧
      find [((2 : Int), 'B'), (5, 'A')] 1 = none ∧
      next [((2 : Int), 'B'), (5, 'A')] none = .error Fault.advance_end ∧
      assign (⟨'A', [(2, 'B'), (5, 'A')]⟩ : interval_map Int Char) 1 4 'A'
        = .error Fault.advance_end :=
  ⟨by decide, by decide, by decide, rfl, rfl⟩

/-- C16 (fails on the code): in the canonical state with base 'A' and the entry 5 -> 'B',
the value before key 3 is 'A'; the call assign(3, 6, 'C') returns the entries 6 -> 'C',
with no entry at 3 although 'A' differs from 'C' (the new first entry is compared with
itself and erased). In the canonical state with entries 1 -> 'B', 4 -> 'C', 9 -> 'A' the
value before key 4 is 'B'; the call assign(4, 6, 'D') returns with the entry at 4 still
carrying 'C' and not 'D' (an existing entry at keyBegin is not overwritten). -/
theorem assign_left_edge_wrong :
    keys_ascending [((5 : Int), 'B')] ∧
      canonical (⟨'A', [(5, 'B')]⟩ : interval_map Int Char) ∧
      value_before (⟨'A', [(5, 'B')]⟩ : interval_map Int Char) 3 = 'A' ∧
      assign (⟨'A', [(5, 'B')]⟩ : interval_map Int Char) 3 6 'C' = .ok ⟨'A', [(6, 'C')]⟩ ∧
      contains [((6 : Int), 'C')] 3 = false ∧
      keys_ascending [((1 : Int), 'B'), (4, 'C'), (9, 'A')] ∧
      canonical (⟨'A', [(1, 'B'), (4, 'C'), (9, 'A')]⟩ : interval_map Int Char) ∧
      value_before (⟨'A', [(1, 'B'), (4, 'C'), (9, 'A')]⟩ : interval_map Int Char) 4 = 'B' ∧
      assign (⟨'A', [(1, 'B'), (4, 'C'), (9, 'A')]⟩ : interval_map Int Char) 4 6 'D'
        = .ok ⟨'A', [(1, 'B'), (4, 'C'), (6, 'C'), (9, 'A')]⟩ ∧
      value_of [((1 : Int), 'B'), (4, 'C'), (6, 'C'), (9, 'A')] 4 = some 'C' :=
  ⟨by decide, by decide, by decide, rfl, by decide, by decide, by decide, by decide, rfl,
    by decide⟩

/-- C17 (fails on the code): in the canonical state with base 'A' and entries 4 -> 'B',
8 -> 'A', key 6 reads 'B'; the call assign(2, 6, 'B') returns the entries 6 -> 'B',
8 -> 'A', with an entry at 6 although the value there equals val. In the canonical state
with the entry 3 -> 'D', key 4 reads 'D'; the call assign(1, 4, 'B') returns the entries
4 -> 'B': the entry at 4 carries val and not 'D'. -/
theorem assign_right_edge_wrong :
    keys_ascending [((4 : Int), 'B'), (8, 'A')] ∧
      canonical (⟨'A', [(4, 'B'), (8, 'A')]⟩ : interval_map Int Char) ∧
      value_at (⟨'A', [(4, 'B'), (8, 'A')]⟩ : interval_map Int Char) 6 = 'B' ∧
      assign (⟨'A', [(4, 'B'), (8, 'A')]⟩ : interval_map Int Char) 2 6 'B'
        = .ok ⟨'A', [(6, 'B'), (8, 'A')]⟩ ∧
      contains [((6 : Int), 'B'), (8, 'A')] 6 = true ∧
      keys_ascending [((3 : Int), 'D')] ∧
      canonical (⟨'A', [(3, 'D')]⟩ : interval_map Int Char) ∧
      value_at (⟨'A', [(3, 'D')]⟩ : interval_map Int Char) 4 = 'D' ∧
      assign (⟨'A', [(3, 'D')]⟩ : interval_map Int Char) 1 4 'B' = .ok ⟨'A', [(4, 'B')]⟩ ∧
      value_of [((4 : Int), 'B')] 4 = some 'B' :=
  ⟨by decide, by decide, by decide, rfl, by decide, by decide, by decide, by decide, rfl,
    by decide⟩

/-- C18 (fails on the code): in the canonical state with base 'A' and entries 1 -> 'C',
7 -> 'A', the call assign(3, 5, 'C') stores nothing at 3; in step 3 itEnd is the entry at
7, std::prev(itEnd) is the entry 1 -> 'C', it carries val, and erase(std::prev(itEnd),
itEnd) removes it: an entry with key 1 < 3 is removed. The call then evaluates
std::next(end()). -/
theorem assign_erases_entry_below_keyBegin :
    keys_ascending [((1 : Int), 'C'), (7, 'A')] ∧
      canonical (⟨'A', [(1, 'C'), (7, 'A')]⟩ : interval_map Int Char) ∧
      lower_bound [((1 : Int), 'C'), (7, 'A')] 5 = some 7 ∧
      prev [((1 : Int), 'C'), (7, 'A')] (some 7) = .ok (some 1) ∧
      deref [((1 : Int), 'C'), (7, 'A')] (some 1) = .ok (1, 'C') ∧
      erase_range [((1 : Int), 'C'), (7, 'A')] (some 1) (some 7) = .ok [(7, 'A')] ∧
      assign (⟨'A', [(1, 'C'), (7, 'A')]⟩ : interval_map Int Char) 3 5 'C'
        = .error Fault.advance_end :=
  ⟨by decide, by decide, rfl, rfl, rfl, rfl, rfl⟩

/-- C19 (fails on the code): on a map constructed with 'A' the history assign(4, 6, 'C')
does not return a state, so no non-empty state is reached whose last entry could carry
the base value. The property is not kept by a returning call either: from base 'A',
entries 1 -> 'B', 5 -> 'A' (last entry carries the base value) the call assign(3, 7, 'C')
returns the entries 1 -> 'B', 3 -> 'C', 7 -> 'C', whose last entry carries 'C', and key 7
reads 'C'. -/
theorem tail_not_base :
    assign_all (interval_map.new 'A' : interval_map Int Char) [(4, 6, 'C')]
        = .error Fault.invalidated ∧
      canonical (⟨'A', [(1, 'B'), (5, 'A')]⟩ : interval_map Int Char) ∧
      assign (⟨'A', [(1, 'B'), (5, 'A')]⟩ : interval_map Int Char) 3 7 'C'
        = .ok ⟨'A', [(1, 'B'), (3, 'C'), (7, 'C')]⟩ ∧
      [((1 : Int), 'B'), (3, 'C'), (7, 'C')].getLast? = some (7, 'C') ∧
      value_at (⟨'A', [(1, 'B'), (3, 'C'), (7, 'C')]⟩ : interval_map Int Char) 7 = 'C' :=
  ⟨rfl, by decide, rfl, rfl, by decide⟩

end claims

end IntervalMap
